import Mathlib

/-!
Verification of `hack/bump_up_version.py`: a shallow embedding of the
version bump-up script.  Pure string manipulation (template rendering,
patch-file naming, semantic-version validation) is embedded as computable
functions on `List Char` / `String`; the effectful parts (file writes,
git subprocess invocations, `sys.exit`, uncaught exceptions) are embedded
in an explicit state-passing monad that records a trace of effects and
an `Except`-style outcome.
-/

namespace BumpUpVersion

/-! ## String machinery: Python `str.replace` on `List Char` -/

/-- Left-to-right, non-overlapping replacement of the nonempty pattern
`p :: ps` by `rep`, as performed by Python `str.replace` for a nonempty
pattern.  The `fuel` argument makes the recursion structural; it is
always called with `fuel ≥ s.length`, which makes the `0, s` fallback
unreachable. -/
def replaceGo (p : Char) (ps rep : List Char) : Nat → List Char → List Char
  | _, [] => []
  | 0, s => s
  | fuel + 1, c :: rest =>
    if (p :: ps).isPrefixOf (c :: rest) then
      rep ++ replaceGo p ps rep fuel (rest.drop ps.length)
    else
      c :: replaceGo p ps rep fuel rest

/-- Python `str.replace pat rep` for a nonempty pattern `pat`.  (The script
only ever replaces the fixed nonempty tokens, so the empty-pattern case is
irrelevant; we let it be the identity.) -/
def replaceAll (pat rep s : List Char) : List Char :=
  match pat with
  | [] => s
  | p :: ps => replaceGo p ps rep s.length s

/-- The literal token `<current-version>`. -/
def currentToken : List Char := "<current-version>".toList

/-- The literal token `<new-version>`. -/
def newToken : List Char := "<new-version>".toList

/-- The template-rendering expression of `prepare_patches`:
`template.replace("<current-version>", current_version).replace("<new-version>", new_version)`. -/
def renderContent (template current_version new_version : List Char) : List Char :=
  replaceAll newToken new_version (replaceAll currentToken current_version template)

/-! ## Semantic-version validation -/

/-- A character allowed in a pre-release / build identifier:
`[0-9A-Za-z-]`. -/
def isIdentChar (c : Char) : Bool := c.isDigit || c.isAlpha || decide (c = '-')

/-- A nonempty all-digit component (MAJOR / MINOR / PATCH). -/
def isDigits (l : List Char) : Bool := decide (l ≠ []) && l.all Char.isDigit

/-- A nonempty identifier over `[0-9A-Za-z-]`. -/
def isIdent (l : List Char) : Bool := decide (l ≠ []) && l.all isIdentChar

/-- Split a character list at every `'.'`. -/
def splitOnDot : List Char → List (List Char)
  | [] => [[]]
  | c :: rest =>
    if c = '.' then [] :: splitOnDot rest
    else
      match splitOnDot rest with
      | [] => [[c]]
      | p :: ps => (c :: p) :: ps

/-- Join components back with `'.'` separators. -/
def joinDots : List (List Char) → List Char
  | [] => []
  | [p] => p
  | p :: q :: rest => p ++ '.' :: joinDots (q :: rest)

/-- Split at the first occurrence of `sep`, if any. -/
def splitFirst (sep : Char) : List Char → List Char × Option (List Char)
  | [] => ([], none)
  | c :: rest =>
    if c = sep then ([], some rest)
    else
      let r := splitFirst sep rest
      (c :: r.1, r.2)

/-- All dot-separated components satisfy `p`. -/
def dotSeparated (p : List Char → Bool) (l : List Char) : Bool :=
  (splitOnDot l).all p

/-- The `MAJOR.MINOR.PATCH` core: exactly three all-digit components. -/
def isValidCore (core : List Char) : Bool :=
  match splitOnDot core with
  | [a, b, c] => isDigits a && isDigits b && isDigits c
  | _ => false

/-- Modelled from the spec: the acceptance condition of the external
`semantic_version.Version` constructor used by `check_version_format`
(the `semantic_version` library is not part of this repository).  Per the
spec, a version string is `MAJOR.MINOR.PATCH` — three dot-separated
numeric components — optionally followed by a `-`-introduced pre-release
suffix and/or a `+`-introduced build suffix, each a nonempty dot-separated
list of nonempty identifiers over `[0-9A-Za-z-]`. -/
def isValidSemVer (s : List Char) : Bool :=
  let b := splitFirst '+' s
  let p := splitFirst '-' b.1
  isValidCore p.1
    && (match p.2 with | none => true | some pre => dotSeparated isIdent pre)
    && (match b.2 with | none => true | some build => dotSeparated isIdent build)

/-! ## Effects, errors and the explicit state-passing monad -/

/-- The result of a `subprocess.run` invocation (exit code, captured
output streams, already decoded to text). -/
structure CompletedProcess where
  returncode : Int
  stdout : String
  stderr : String
deriving DecidableEq, Repr

/-- Visible side effects of a run: a patch-file write or a git subprocess
invocation (`git -C <repo> <arguments>`). -/
inductive Effect where
  | writeFile (filename content : String)
  | git (repo : String) (arguments : List String)
deriving DecidableEq, Repr

/-- How a run terminates abnormally: `sys.exit(code)` or an uncaught
Python exception (which makes the interpreter exit with status 1). -/
inductive Err where
  | exit (code : Nat)
  | exc (message : String)
deriving DecidableEq, Repr

/-- The process exit status produced by an abnormal termination. -/
def Err.exitCode : Err → Nat
  | .exit code => code
  | .exc _ => 1

/-- Explicit state-passing monad: a computation consumes the trace of
effects so far and returns an outcome together with the extended trace. -/
def M (α : Type) : Type := List Effect → Except Err α × List Effect

def mPure {α : Type} (a : α) : M α := fun t => (.ok a, t)

def mBind {α β : Type} (x : M α) (f : α → M β) : M β := fun t =>
  match x t with
  | (.ok a, t') => f a t'
  | (.error e, t') => (.error e, t')

instance : Monad M where
  pure := mPure
  bind := mBind

/-- Abort the run with the given error. -/
def mThrow {α : Type} (e : Err) : M α := fun t => (.error e, t)

/-- Record an effect. -/
def mTell (eff : Effect) : M Unit := fun t => (.ok (), t ++ [eff])

/-- The environment a run is performed against: the content of each patch
template (by registry path) and the outcome of every git invocation. -/
structure Env where
  template : String → String
  gitResult : String → List String → CompletedProcess

/-! ## The script's functions -/

/-- The repository registry (`repositories` at module scope): repository
identifier → patch-template path, in declaration order. -/
def repositories : List (String × String) :=
  [("lightspeed-console", "version_patches/console.patch"),
   ("lightspeed-service", "version_patches/service.patch"),
   ("lightspeed-operator", "version_patches/operator.patch"),
   ("konflux-release-data", "version_patches/konflux-release-data.patch")]

/-- Embeds `check_cli_args`: `sys.exit(1)` unless exactly three CLI arguments. -/
def check_cli_args (args : List String) : M Unit :=
  if args.length ≠ 3 then mThrow (.exit 1) else pure ()

/-- Embeds `check_version_format`: constructs `semantic_version.Version(version)`,
which raises (an uncaught exception) exactly when the string is not a
valid semantic version.  The acceptance condition `isValidSemVer` is
modelled from the spec, the library being external to the repository. -/
def check_version_format (version : String) : M Unit :=
  if isValidSemVer version.toList then pure ()
  else mThrow (.exc ("invalid version string: " ++ version))

/-- Embeds `read_template`: reads the template file at
`Path(__file__).parent / patch`. -/
def read_template (env : Env) (patch : String) : M String :=
  pure (env.template patch)

/-- Embeds `write_patch`: writes `content` to `filename` (resolved against the
current working directory). -/
def write_patch (filename : String) (content : String) : M Unit :=
  mTell (.writeFile filename content)

/-- Embeds `patch_name`: the generated patch filename. -/
def patch_name (repository current_version new_version : String) : String :=
  s!"{repository}-bump-from-{current_version}-to-{new_version}.patch"

/-- Embeds `prepare_patches`: for each registry entry, read the template, render
it and write the patch file. -/
def prepare_patches (env : Env) :
    List (String × String) → String → String → M Unit
  | [], _, _ => pure ()
  | (repository, patch) :: rest, current_version, new_version => do
    let template ← read_template env patch
    let content : String :=
      ⟨renderContent template.toList current_version.toList new_version.toList⟩
    write_patch (patch_name repository current_version new_version) content
    prepare_patches env rest current_version new_version

/-- Embeds `check_return_code`: raises `Exception(stderr)` when the command
exited nonzero. -/
def check_return_code (result : CompletedProcess) (_error_message : String) : M Unit :=
  if result.returncode ≠ 0 then mThrow (.exc result.stderr) else pure ()

/-- Embeds `git_command`: run `git -C target_repository *arguments` and return
the completed process (no check). -/
def git_command (env : Env) (target_repository : String)
    (arguments : List String) : M CompletedProcess := do
  mTell (.git target_repository arguments)
  pure (env.gitResult target_repository arguments)

/-- Embeds `sync_repository`: checkout main, fetch origin, rebase origin/main. -/
def sync_repository (env : Env) (target_repository : String) : M Unit := do
  let result ← git_command env target_repository ["checkout", "main"]
  check_return_code result "git checkout to main branch failed"
  let result ← git_command env target_repository ["fetch", "origin"]
  check_return_code result "git fetch failed"
  let result ← git_command env target_repository ["rebase", "origin/main"]
  check_return_code result "git rebase to origin/main failed"

/-- Embeds `create_branch`: create the pull-request branch. -/
def create_branch (env : Env) (target_repository branch_name : String) : M Unit := do
  let result ← git_command env target_repository ["checkout", "-b", branch_name]
  check_return_code result ("cannot create branch named " ++ branch_name)

/-- Embeds `check_if_applicable`: dry-run application of the patch. -/
def check_if_applicable (env : Env) (target_repository patch_file : String) : M Unit := do
  let result ← git_command env target_repository ["apply", "--check", "../" ++ patch_file]
  check_return_code result ("cannot apply patch " ++ patch_file ++ " (dry run)")

/-- Embeds `apply_patch`: apply the patch for real. -/
def apply_patch (env : Env) (target_repository patch_file : String) : M Unit := do
  let result ← git_command env target_repository ["apply", "../" ++ patch_file]
  check_return_code result ("cannot apply patch " ++ patch_file ++ " (real apply)")

/-- Embeds `commit_changes`: `git add .` then `git commit -m "Bump to version …"`. -/
def commit_changes (env : Env) (target_repository new_version : String) : M Unit := do
  let result ← git_command env target_repository ["add", "."]
  check_return_code result ("cannot add changes into reporitory " ++ target_repository)
  let result ← git_command env target_repository
    ["commit", "-m", "Bump to version " ++ new_version]
  check_return_code result ("cannot commit changes into reporitory " ++ target_repository)

/-- Embeds `push_pr`: push the branch to origin. -/
def push_pr (env : Env) (target_repository branch_name : String) : M Unit := do
  let result ← git_command env target_repository ["push", "origin", branch_name]
  check_return_code result "cannot push the pull request"

/-- Embeds `prepare_pull_request`: in the source, the calls to `sync_repository`,
`create_branch`, `check_if_applicable`, `apply_patch` and `push_pr` are
commented out; only `commit_changes` executes. -/
def prepare_pull_request (env : Env)
    (target_repository current_version new_version : String) : M Unit := do
  let _branch_name := s!"bump-from-{current_version}-to-{new_version}"
  let _patch := patch_name target_repository current_version new_version
  commit_changes env target_repository new_version

/-- Embeds `prepare_pull_requests`: one pull-request sequence per registry key. -/
def prepare_pull_requests (env : Env) :
    List (String × String) → String → String → M Unit
  | [], _, _ => pure ()
  | (repository, _) :: rest, current_version, new_version => do
    prepare_pull_request env repository current_version new_version
    prepare_pull_requests env rest current_version new_version

/-- The `__main__` block: check CLI arguments, validate both versions,
generate all patches, then run the pull-request sequences.  Returns the
outcome and the full effect trace. -/
def mainRun (argv : List String) (env : Env) : Except Err Unit × List Effect :=
  (do
    check_cli_args argv
    let current_version := argv.getD 1 ""
    check_version_format current_version
    let new_version := argv.getD 2 ""
    check_version_format new_version
    prepare_patches env repositories current_version new_version
    prepare_pull_requests env repositories current_version new_version) []

/-! ## Derived notions used in the statements -/

/-- Whether an effect is a git invocation. -/
def Effect.isGit : Effect → Bool
  | .git _ _ => true
  | .writeFile _ _ => false

/-- The git subcommands (first git argument) invoked in a trace, in
order. -/
def gitSubcommands (t : List Effect) : List (Option String) :=
  t.filterMap fun e =>
    match e with
    | .git _ args => some args.head?
    | .writeFile _ _ => none

/-- The patch-write effects `prepare_patches` performs, one per registry
entry, in registry order. -/
def patchWrites (env : Env) (repos : List (String × String)) (c n : String) : List Effect :=
  repos.map fun rp =>
    .writeFile (patch_name rp.1 c n) ⟨renderContent (env.template rp.2).toList c.toList n.toList⟩

/-- An environment in which every git command succeeds. -/
def envAllOk : Env := ⟨fun _ => "", fun _ _ => ⟨0, "", ""⟩⟩

/-- An environment in which every git command fails with stderr text
`boom`. -/
def envFail : Env := ⟨fun _ => "", fun _ _ => ⟨1, "", "boom"⟩⟩

/-- Path resolution performed by `read_template`:
`Path(__file__).parent / patch` resolves the registry path against the
directory containing the script file. -/
def read_template_path (script_dir patch : String) : String :=
  script_dir ++ "/" ++ patch

/-- Path resolution performed by `write_patch`: `open(filename, "w")`
resolves the generated filename against the process's current working
directory. -/
def write_patch_path (cwd filename : String) : String :=
  cwd ++ "/" ++ filename

/-- A nonempty all-digit component, declaratively. -/
def NumStr (l : List Char) : Prop := l ≠ [] ∧ ∀ c ∈ l, c.isDigit = true

/-- A nonempty identifier over `[0-9A-Za-z-]`, declaratively. -/
def IdentStr (l : List Char) : Prop := l ≠ [] ∧ ∀ c ∈ l, isIdentChar c = true

/-- A nonempty dot-separated sequence of identifiers, declaratively. -/
def DotIdents (l : List Char) : Prop :=
  ∃ parts : List (List Char), parts ≠ [] ∧ (∀ p ∈ parts, IdentStr p) ∧ l = joinDots parts

/-- The optional pre-release/build suffix of a semantic version,
declaratively: empty, `-pre`, `+build`, or `-pre+build`. -/
def OptSuffix (suf : List Char) : Prop :=
  suf = []
  ∨ (∃ pre, DotIdents pre ∧ suf = '-' :: pre)
  ∨ (∃ build, DotIdents build ∧ suf = '+' :: build)
  ∨ (∃ pre build, DotIdents pre ∧ DotIdents build ∧ suf = '-' :: pre ++ '+' :: build)

/-- A syntactically valid semantic version, declaratively:
`MAJOR.MINOR.PATCH` with an optional pre-release/build suffix. -/
def SemVerShape (s : List Char) : Prop :=
  ∃ a b c suf, NumStr a ∧ NumStr b ∧ NumStr c ∧ OptSuffix suf ∧
    s = a ++ '.' :: b ++ '.' :: c ++ suf

/-! ## Occurrence lemmas for replacement -/

lemma mem_of_occurs {p : Char} {l x : List Char} (h : (p :: l) <:+: x) : p ∈ x :=
  h.sublist.subset (List.mem_cons_self p l)

lemma occurs_skip {p : Char} {ps : List Char} :
    ∀ {l1 l2 : List Char}, (p :: ps) <:+: l1 ++ l2 → p ∉ l1 → (p :: ps) <:+: l2 := by
  intro l1
  induction l1 with
  | nil => intro l2 h _; simpa using h
  | cons x l1' ih =>
    intro l2 h hx
    rcases List.infix_cons_iff.mp h with hpre | htail
    · exact absurd ( List.cons_prefix_cons.mp hpre).1.symm
        (fun hxp => hx (by simp [hxp]))
    · exact ih htail (fun hm => hx (List.mem_cons_of_mem x hm))

lemma replaceGo_id {p : Char} {ps rep : List Char} :
    ∀ (fuel : Nat) (s : List Char), ¬ (p :: ps) <:+: s →
      replaceGo p ps rep fuel s = s := by
  intro fuel
  induction fuel with
  | zero => intro s _; cases s <;> simp [replaceGo]
  | succ f ih =>
    intro s hs
    cases s with
    | nil => simp [replaceGo]
    | cons c rest =>
      have hguard : ¬ (p :: ps).isPrefixOf (c :: rest) = true := by
        intro hg
        exact hs (( List.isPrefixOf_iff_prefix.mp hg).isInfix)
      have htail : ¬ (p :: ps) <:+: rest := fun h => hs ( List.infix_cons h)
      simp [replaceGo, hguard, ih rest htail]

/-- No nonempty suffix of `A` can newly become a leading segment of the
output of a replacement whose replacement text `rep` neither has a
nonempty suffix of `A` as a leading segment nor is a leading segment of
one. -/
lemma starts_replaceGo {A rep : List Char} {pB : Char} {psB : List Char}
    (H1 : ∀ q, q <:+ A → q ≠ [] → ¬ q <+: rep)
    (H2 : ∀ q, q <:+ A → q ≠ [] → ¬ rep <+: q) :
    ∀ (fuel : Nat) (s q : List Char), q ≠ [] → q <:+ A →
      q <+: replaceGo pB psB rep fuel s → q <+: s := by
  intro fuel
  induction fuel with
  | zero =>
    intro s q _ _ hq
    cases s with
    | nil => simpa [replaceGo] using hq
    | cons c rest => simpa [replaceGo] using hq
  | succ f ih =>
    intro s q hne hqA hq
    cases s with
    | nil => simpa [replaceGo] using hq
    | cons c rest =>
      by_cases hguard : (pB :: psB).isPrefixOf (c :: rest) = true
      · rw [replaceGo, if_pos hguard] at hq
        rcases List.prefix_or_prefix_of_prefix hq (List.prefix_append rep _) with h | h
        · exact absurd h (H1 q hqA hne)
        · exact absurd h (H2 q hqA hne)
      · rw [replaceGo, if_neg hguard] at hq
        cases q with
        | nil => exact absurd rfl hne
        | cons d q2 =>
          obtain ⟨rfl, hq2⟩ := List.cons_prefix_cons.mp hq
          cases Decidable.em (q2 = []) with
          | inl h2 => subst h2; exact List.cons_prefix_cons.mpr ⟨rfl, List.nil_prefix⟩
          | inr h2 =>
            have hq2A : q2 <:+ A := (List.suffix_cons d q2).trans hqA
            exact List.cons_prefix_cons.mpr ⟨rfl, ih rest q2 h2 hq2A hq2⟩

/-- After replacing the pattern `p :: ps` by `rep`, the pattern no longer
occurs, provided `p ∉ rep`, no nonempty suffix of the pattern is a leading
segment of `rep`, and `rep` is not a leading segment of a nonempty suffix
of the pattern. -/
lemma no_self_occ_replaceGo {p : Char} {ps rep : List Char}
    (hp : p ∉ rep)
    (H1 : ∀ q, q <:+ (p :: ps) → q ≠ [] → ¬ q <+: rep)
    (H2 : ∀ q, q <:+ (p :: ps) → q ≠ [] → ¬ rep <+: q) :
    ∀ (fuel : Nat) (s : List Char), s.length ≤ fuel →
      ¬ (p :: ps) <:+: replaceGo p ps rep fuel s := by
  intro fuel
  induction fuel with
  | zero =>
    intro s hs
    have : s = [] := List.length_eq_zero.mp (Nat.le_zero.mp hs)
    subst this
    simp [replaceGo]
  | succ f ih =>
    intro s hs h
    cases s with
    | nil => simp [replaceGo] at h
    | cons c rest =>
      by_cases hguard : (p :: ps).isPrefixOf (c :: rest) = true
      · rw [replaceGo, if_pos hguard] at h
        have hlen : (rest.drop ps.length).length ≤ f := by
          simp only [List.length_drop]
          simp only [List.length_cons] at hs
          omega
        exact ih (rest.drop ps.length) hlen (occurs_skip h hp)
      · rw [replaceGo, if_neg hguard] at h
        have hnpre : ¬ (p :: ps) <+: (c :: rest) :=
          fun hc => hguard ( List.isPrefixOf_iff_prefix.mpr hc)
        rcases List.infix_cons_iff.mp h with hpre | htail
        · obtain ⟨rfl, hps⟩ := List.cons_prefix_cons.mp hpre
          cases Decidable.em (ps = []) with
          | inl h0 =>
            subst h0
            exact hnpre (List.cons_prefix_cons.mpr ⟨rfl, List.nil_prefix⟩)
          | inr h0 =>
            have := starts_replaceGo H1 H2 f rest ps h0 (List.suffix_cons p ps) hps
            exact hnpre (List.cons_prefix_cons.mpr ⟨rfl, this⟩)
        · have hlen : rest.length ≤ f := by
            simp only [List.length_cons] at hs; omega
          exact ih rest hlen htail

/-- Replacing a different pattern `pB :: psB` by `rep` cannot create a new
occurrence of `A`, provided the head of `A` is not in `rep` and the
`starts_replaceGo` side conditions hold. -/
lemma no_other_occ_replaceGo {a : Char} {psA rep : List Char} {pB : Char} {psB : List Char}
    (ha : a ∉ rep)
    (H1 : ∀ q, q <:+ (a :: psA) → q ≠ [] → ¬ q <+: rep)
    (H2 : ∀ q, q <:+ (a :: psA) → q ≠ [] → ¬ rep <+: q) :
    ∀ (fuel : Nat) (s : List Char), s.length ≤ fuel → ¬ (a :: psA) <:+: s →
      ¬ (a :: psA) <:+: replaceGo pB psB rep fuel s := by
  intro fuel
  induction fuel with
  | zero =>
    intro s hs _
    have : s = [] := List.length_eq_zero.mp (Nat.le_zero.mp hs)
    subst this
    simp [replaceGo]
  | succ f ih =>
    intro s hs hno h
    cases s with
    | nil => simp [replaceGo] at h
    | cons c rest =>
      by_cases hguard : (pB :: psB).isPrefixOf (c :: rest) = true
      · rw [replaceGo, if_pos hguard] at h
        have h2 := occurs_skip h ha
        have hlen : (rest.drop psB.length).length ≤ f := by
          simp only [List.length_drop]
          simp only [List.length_cons] at hs
          omega
        have hno2 : ¬ (a :: psA) <:+: rest.drop psB.length := by
          intro hocc
          exact hno ( List.infix_cons (hocc.trans (List.drop_suffix _ _).isInfix))
        exact ih (rest.drop psB.length) hlen hno2 h2
      · rw [replaceGo, if_neg hguard] at h
        rcases List.infix_cons_iff.mp h with hpre | htail
        · obtain ⟨rfl, hps⟩ := List.cons_prefix_cons.mp hpre
          cases Decidable.em (psA = []) with
          | inl h0 =>
            subst h0
            exact hno (List.IsPrefix.isInfix (List.cons_prefix_cons.mpr ⟨rfl, List.nil_prefix⟩))
          | inr h0 =>
            have := starts_replaceGo H1 H2 f rest psA h0 (List.suffix_cons a psA) hps
            exact hno (List.IsPrefix.isInfix (List.cons_prefix_cons.mpr ⟨rfl, this⟩))
        · have hlen : rest.length ≤ f := by
            simp only [List.length_cons] at hs; omega
          have hno2 : ¬ (a :: psA) <:+: rest := fun hc => hno ( List.infix_cons hc)
          exact ih rest hlen hno2 htail

lemma replaceGo_fuel {p : Char} {ps rep : List Char} :
    ∀ (f1 f2 : Nat) (s : List Char), s.length ≤ f1 → s.length ≤ f2 →
      replaceGo p ps rep f1 s = replaceGo p ps rep f2 s := by
  intro f1
  induction f1 with
  | zero =>
    intro f2 s hs1 _
    have : s = [] := List.length_eq_zero.mp (Nat.le_zero.mp hs1)
    subst this
    cases f2 <;> simp [replaceGo]
  | succ f ih =>
    intro f2 s hs1 hs2
    cases s with
    | nil => cases f2 <;> simp [replaceGo]
    | cons c rest =>
      cases f2 with
      | zero => simp at hs2
      | succ g =>
        simp only [List.length_cons] at hs1 hs2
        by_cases hguard : (p :: ps).isPrefixOf (c :: rest) = true
        · rw [replaceGo, replaceGo, if_pos hguard, if_pos hguard]
          have hl : (rest.drop ps.length).length ≤ rest.length := by
            simp [List.length_drop]
          rw [ih g _ (by omega) (by omega)]
        · rw [replaceGo, replaceGo, if_neg hguard, if_neg hguard]
          rw [ih g rest (by omega) (by omega)]

lemma replaceAll_cons_def (p : Char) (ps rep s : List Char) :
    replaceAll (p :: ps) rep s = replaceGo p ps rep s.length s := rfl

/-- Replacement is the identity when the pattern does not occur. -/
lemma replaceAll_id {pat rep s : List Char} (h : ¬ pat <:+: s) :
    replaceAll pat rep s = s := by
  cases pat with
  | nil => rfl
  | cons p ps => exact replaceGo_id s.length s h

/-- The characteristic equation of a literal find/replace: the leftmost
occurrence of the pattern is replaced, and replacement continues in the
remainder. -/
lemma replaceGo_emit {p : Char} {ps rep b : List Char} :
    ∀ (a : List Char) (fuel : Nat), (a ++ (p :: ps) ++ b).length ≤ fuel → p ∉ a →
      replaceGo p ps rep fuel (a ++ (p :: ps) ++ b) =
        a ++ rep ++ replaceGo p ps rep b.length b := by
  intro a
  induction a with
  | nil =>
    intro fuel hlen _
    simp only [List.nil_append, List.length_append, List.length_cons] at hlen ⊢
    cases fuel with
    | zero => omega
    | succ f =>
      have hguard : (p :: ps).isPrefixOf (p :: (ps ++ b)) = true :=
        List.isPrefixOf_iff_prefix.mpr (List.cons_prefix_cons.mpr ⟨rfl, List.prefix_append ps b⟩)
      rw [List.cons_append, replaceGo, if_pos hguard, List.drop_left]
      rw [replaceGo_fuel f b.length b (by omega) le_rfl]
  | cons x a' ih =>
    intro fuel hlen hx
    have hpx : p ≠ x := fun h => hx (h ▸ List.mem_cons_self x a')
    have hx' : p ∉ a' := fun h => hx (List.mem_cons_of_mem x h)
    cases fuel with
    | zero => simp [List.cons_append, List.length_cons] at hlen
    | succ f =>
      have hguard : ¬ (p :: ps).isPrefixOf (x :: ((a' ++ (p :: ps)) ++ b)) = true := by
        intro hg
        exact hpx ( List.cons_prefix_cons.mp ( List.isPrefixOf_iff_prefix.mp hg)).1
      rw [List.cons_append, List.cons_append, replaceGo, if_neg hguard]
      have hlen' : (a' ++ (p :: ps) ++ b).length ≤ f := by
        simp only [List.cons_append, List.length_cons] at hlen
        simpa using Nat.le_of_succ_le_succ hlen
      rw [ih f hlen' hx']
      simp

lemma replaceAll_emit {p : Char} {ps rep a b : List Char} (ha : p ∉ a) :
    replaceAll (p :: ps) rep (a ++ (p :: ps) ++ b) =
      a ++ rep ++ replaceAll (p :: ps) rep b :=
  replaceGo_emit a (a ++ (p :: ps) ++ b).length le_rfl ha

/-! ## Token facts and packaged no-occurrence lemmas -/

lemma currentToken_eq : currentToken = '<' :: "current-version>".toList := by decide

lemma newToken_eq : newToken = '<' :: "new-version>".toList := by decide

lemma renderContent_def (T c n : List Char) :
    renderContent T c n = replaceAll newToken n (replaceAll currentToken c T) := rfl

lemma last_mem_of_getLastQ {l : List Char} {z : Char} (h : l.getLast? = some z) : z ∈ l := by
  rcases l.eq_nil_or_concat with rfl | ⟨L, b, rfl⟩
  · simp at h
  · rw [List.concat_eq_append, List.getLast?_concat] at h
    rw [Option.some_inj] at h
    subst h
    simp [List.concat_eq_append]

lemma getLastQ_of_ends {A q : List Char} {z : Char}
    (hlast : A.getLast? = some z) (hq : q <:+ A) (hne : q ≠ []) :
    q.getLast? = some z := by
  obtain ⟨u, rfl⟩ := hq
  rw [List.getLast?_append] at hlast
  cases hq' : q.getLast? with
  | none => exact absurd (List.getLast?_eq_none_iff.mp hq') hne
  | some w => rw [hq', Option.or_some] at hlast; exact hq' ▸ hlast ▸ hq'

lemma side_one_of_last {z : Char} {A rep : List Char}
    (hlast : A.getLast? = some z) (hz : z ∉ rep) :
    ∀ q, q <:+ A → q ≠ [] → ¬ q <+: rep := by
  intro q hq hne hpre
  exact hz (hpre.sublist.subset (last_mem_of_getLastQ (getLastQ_of_ends hlast hq hne)))

lemma side_two_of_missing {ch : Char} {A rep : List Char}
    (hmem : ch ∈ rep) (hnot : ch ∉ A) :
    ∀ q, q <:+ A → q ≠ [] → ¬ rep <+: q :=
  fun _q hq _ hpre => hnot (hq.sublist.subset (hpre.sublist.subset hmem))

/-- Replacing a token whose last character does not occur in the
replacement text, and which misses some character of the replacement
text, eliminates all occurrences of that token. -/
lemma no_tok_occ_replaceAll {tok rep s : List Char} {p : Char} {ps : List Char}
    (htok : tok = p :: ps) (hp : p ∉ rep)
    (hlast : ∃ z, tok.getLast? = some z ∧ z ∉ rep)
    (hch : ∃ ch, ch ∈ rep ∧ ch ∉ tok) :
    ¬ tok <:+: replaceAll tok rep s := by
  subst htok
  obtain ⟨z, hz1, hz2⟩ := hlast
  obtain ⟨ch, hch1, hch2⟩ := hch
  rw [replaceAll_cons_def]
  exact no_self_occ_replaceGo hp (side_one_of_last hz1 hz2) (side_two_of_missing hch1 hch2)
    s.length s le_rfl

/-- Replacing a (possibly different) token cannot create an occurrence of
`A` when `A` did not occur, under the same character side conditions. -/
lemma no_other_occ_replaceAll {A tok rep s : List Char} {a pB : Char} {psA psB : List Char}
    (hA : A = a :: psA) (htok : tok = pB :: psB) (ha : a ∉ rep)
    (hlast : ∃ z, A.getLast? = some z ∧ z ∉ rep)
    (hch : ∃ ch, ch ∈ rep ∧ ch ∉ A)
    (hno : ¬ A <:+: s) :
    ¬ A <:+: replaceAll tok rep s := by
  subst hA
  obtain ⟨z, hz1, hz2⟩ := hlast
  obtain ⟨ch, hch1, hch2⟩ := hch
  rw [htok, replaceAll_cons_def]
  exact no_other_occ_replaceGo ha (side_one_of_last hz1 hz2) (side_two_of_missing hch1 hch2)
    s.length s le_rfl hno

/-- The current-version token does not occur in a list made of
`'<'`-free segments around an embedded new-version token. -/
lemma no_cur_occ_around_new {m b : List Char} (hm : '<' ∉ m) (hb : '<' ∉ b) :
    ¬ currentToken <:+: m ++ newToken ++ b := by
  rw [List.append_assoc, currentToken_eq]
  intro h
  have h1 := occurs_skip h hm
  rw [newToken_eq, List.cons_append] at h1
  rcases List.infix_cons_iff.mp h1 with hpre | htail
  · have h2 := ( List.cons_prefix_cons.mp hpre).2
    have e1 : "current-version>".toList = 'c' :: "urrent-version>".toList := rfl
    have e2 : "new-version>".toList = 'n' :: "ew-version>".toList := rfl
    rw [e1, e2, List.cons_append] at h2
    exact absurd ( List.cons_prefix_cons.mp h2).1 (by decide)
  · have h3 := occurs_skip htail (by decide : '<' ∉ "new-version>".toList)
    exact hb (mem_of_occurs h3)

/-! ## Claims C5 and C6: template rendering -/

/-- C5: rendering performs a literal find/replace of the token
`<current-version>` by the current version first and of `<new-version>`
by the new version second: on a template made of the two tokens embedded
in `'<'`-free text (with a `'<'`-free current version), each token is
replaced by its value; in particular `v<current-version>-><new-version>`
with current `1.0.0` and new `1.0.1` renders to `v1.0.0->1.0.1`. -/
theorem claim_c5 (a m b c n : List Char)
    (ha : '<' ∉ a) (hm : '<' ∉ m) (hb : '<' ∉ b) (hc : '<' ∉ c) :
    renderContent (a ++ currentToken ++ m ++ newToken ++ b) c n =
      a ++ c ++ m ++ n ++ b := by
  have hT : a ++ currentToken ++ m ++ newToken ++ b
      = a ++ currentToken ++ (m ++ newToken ++ b) := by
    simp [List.append_assoc]
  rw [renderContent_def, hT, currentToken_eq, replaceAll_emit ha, ← currentToken_eq,
    replaceAll_id (no_cur_occ_around_new hm hb)]
  have hS : a ++ c ++ (m ++ newToken ++ b) = a ++ c ++ m ++ newToken ++ b := by
    simp [List.append_assoc]
  rw [hS]
  have hS2 : a ++ c ++ m ++ newToken ++ b = (a ++ c ++ m) ++ newToken ++ b := rfl
  have hacm : '<' ∉ a ++ c ++ m := by
    simp only [List.mem_append]
    intro h
    rcases h with (h | h) | h
    · exact ha h
    · exact hc h
    · exact hm h
  rw [hS2, newToken_eq, replaceAll_emit hacm,
    replaceAll_id (fun h => hb (mem_of_occurs h))]

/-- C5 witness: the concrete scenario from the spec, obtained by applying
`claim_c5` at `a = "v"`, `m = "->"`, `b = ""`, `c = "1.0.0"`,
`n = "1.0.1"`. -/
theorem claim_c5_witness :
    ('<' ∉ "v".toList ∧ '<' ∉ "->".toList ∧ '<' ∉ ([] : List Char) ∧ '<' ∉ "1.0.0".toList) ∧
    renderContent "v<current-version>-><new-version>".toList "1.0.0".toList "1.0.1".toList
      = "v1.0.0->1.0.1".toList := by
  refine ⟨⟨by decide, by decide, by decide, by decide⟩, ?_⟩
  have h := claim_c5 "v".toList "->".toList [] "1.0.0".toList "1.0.1".toList
    (by decide) (by decide) (by decide) (by decide)
  have e1 : "v<current-version>-><new-version>".toList
      = "v".toList ++ currentToken ++ "->".toList ++ newToken ++ [] := by decide
  have e2 : "v".toList ++ "1.0.0".toList ++ "->".toList ++ "1.0.1".toList ++ []
      = "v1.0.0->1.0.1".toList := by decide
  rw [e1, h, e2]

/-- C6 counterexample: rendering is not idempotent for arbitrary version
strings.  With template `<current-<current-version>>` and current-version
value `version`, one application yields `<current-version>` while a
second application turns that into `version`. -/
theorem claim_c6_counterexample :
    renderContent
        (renderContent "<current-<current-version>>".toList "version".toList "1.0.1".toList)
        "version".toList "1.0.1".toList
      ≠ renderContent "<current-<current-version>>".toList "version".toList "1.0.1".toList := by
  decide

/-- C6 (amended): rendering is idempotent under re-application provided
the two version values contain a `'.'` and contain neither `'<'` nor
`'>'` — which is the case for every `MAJOR.MINOR.PATCH` semantic
version.  (For arbitrary values the claim fails, see the
counterexample.) -/
theorem claim_c6 (T c n : List Char)
    (hc1 : '<' ∉ c) (hc2 : '>' ∉ c) (hc3 : '.' ∈ c)
    (hn1 : '<' ∉ n) (hn2 : '>' ∉ n) (hn3 : '.' ∈ n) :
    renderContent (renderContent T c n) c n = renderContent T c n := by
  have h1 : ¬ currentToken <:+: replaceAll currentToken c T :=
    no_tok_occ_replaceAll currentToken_eq hc1 ⟨'>', by decide, hc2⟩ ⟨'.', hc3, by decide⟩
  have h2 : ¬ currentToken <:+: renderContent T c n := by
    rw [renderContent_def]
    exact no_other_occ_replaceAll currentToken_eq newToken_eq hn1
      ⟨'>', by decide, hn2⟩ ⟨'.', hn3, by decide⟩ h1
  have h3 : ¬ newToken <:+: renderContent T c n := by
    rw [renderContent_def]
    exact no_tok_occ_replaceAll newToken_eq hn1 ⟨'>', by decide, hn2⟩ ⟨'.', hn3, by decide⟩
  calc renderContent (renderContent T c n) c n
      = replaceAll newToken n (replaceAll currentToken c (renderContent T c n)) := rfl
    _ = replaceAll newToken n (renderContent T c n) := by rw [replaceAll_id h2]
    _ = renderContent T c n := replaceAll_id h3

/-- C6 witness: `claim_c6` applied at the spec's concrete scenario
(template `v<current-version>-><new-version>`, versions `1.0.0` and
`1.0.1`). -/
theorem claim_c6_witness :
    ('<' ∉ "1.0.0".toList ∧ '>' ∉ "1.0.0".toList ∧ '.' ∈ "1.0.0".toList ∧
     '<' ∉ "1.0.1".toList ∧ '>' ∉ "1.0.1".toList ∧ '.' ∈ "1.0.1".toList) ∧
    renderContent
        (renderContent "v<current-version>-><new-version>".toList "1.0.0".toList "1.0.1".toList)
        "1.0.0".toList "1.0.1".toList
      = renderContent "v<current-version>-><new-version>".toList "1.0.0".toList "1.0.1".toList := by
  refine ⟨⟨by decide, by decide, by decide, by decide, by decide, by decide⟩, ?_⟩
  exact claim_c6 "v<current-version>-><new-version>".toList "1.0.0".toList "1.0.1".toList
    (by decide) (by decide) (by decide) (by decide) (by decide) (by decide)

/-! ## Claims C7 and C8: patch filenames -/

lemma patch_name_append (r c n : String) :
    patch_name r c n = r ++ "-bump-from-" ++ c ++ "-to-" ++ n ++ ".patch" := by
  show "" ++ r ++ "-bump-from-" ++ c ++ "-to-" ++ n ++ ".patch" = _
  rw [String.empty_append]

lemma patch_name_toList (r c n : String) :
    (patch_name r c n).toList =
      r.toList ++ "-bump-from-".toList ++ c.toList ++ "-to-".toList
        ++ n.toList ++ ".patch".toList := by
  rw [patch_name_append]
  show (r ++ "-bump-from-" ++ c ++ "-to-" ++ n ++ ".patch").data = _
  simp only [String.data_append]
  rfl

/-- Two decompositions around a separator character agree when neither
left part contains the separator. -/
lemma hyphen_eq_split {a1 a2 x1 x2 : List Char}
    (h : a1 ++ '-' :: x1 = a2 ++ '-' :: x2) (h1 : '-' ∉ a1) (h2 : '-' ∉ a2) :
    a1 = a2 ∧ x1 = x2 := by
  induction a1 generalizing a2 with
  | nil =>
    cases a2 with
    | nil => simpa using h
    | cons y a2' =>
      rw [List.nil_append, List.cons_append] at h
      injection h with hy _
      exact absurd (hy ▸ List.mem_cons_self y a2') h2
  | cons y a1' ih =>
    cases a2 with
    | nil =>
      rw [List.nil_append, List.cons_append] at h
      injection h with hy _
      exact absurd (hy.symm ▸ List.mem_cons_self y a1') h1
    | cons z a2' =>
      rw [List.cons_append, List.cons_append] at h
      injection h with hy htl
      have h1' : '-' ∉ a1' := fun hm => h1 (List.mem_cons_of_mem y hm)
      have h2' : '-' ∉ a2' := fun hm => h2 (List.mem_cons_of_mem z hm)
      obtain ⟨ha, hx⟩ := ih htl h1' h2'
      exact ⟨by rw [hy, ha], hx⟩

/-- Right-to-left parse uniqueness of the patch-filename layout for
hyphen-free version components. -/
lemma parse_triple {r1 c1 n1 r2 c2 n2 : List Char}
    (hc1 : '-' ∉ c1) (hn1 : '-' ∉ n1) (hc2 : '-' ∉ c2) (hn2 : '-' ∉ n2)
    (h : r1 ++ "-bump-from-".toList ++ c1 ++ "-to-".toList ++ n1 ++ ".patch".toList
       = r2 ++ "-bump-from-".toList ++ c2 ++ "-to-".toList ++ n2 ++ ".patch".toList) :
    r1 = r2 ∧ c1 = c2 ∧ n1 = n2 := by
  have h' := congrArg List.reverse h
  simp only [List.reverse_append] at h'
  have h2 := List.append_cancel_left h'
  have eT : ("-to-".toList).reverse = '-' :: 'o' :: 't' :: '-' :: [] := by decide
  have eK : ("-bump-from-".toList).reverse
      = '-' :: 'm' :: 'o' :: 'r' :: 'f' :: '-' :: 'p' :: 'm' :: 'u' :: 'b' :: '-' :: [] := by
    decide
  rw [eT, eK] at h2
  simp only [List.cons_append, List.nil_append] at h2
  have hn1' : '-' ∉ n1.reverse := fun hm => hn1 (List.mem_reverse.mp hm)
  have hn2' : '-' ∉ n2.reverse := fun hm => hn2 (List.mem_reverse.mp hm)
  obtain ⟨hn, htl⟩ := hyphen_eq_split h2 hn1' hn2'
  injection htl with _ htl
  injection htl with _ htl
  injection htl with _ htl
  have hc1' : '-' ∉ c1.reverse := fun hm => hc1 (List.mem_reverse.mp hm)
  have hc2' : '-' ∉ c2.reverse := fun hm => hc2 (List.mem_reverse.mp hm)
  obtain ⟨hc, htl2⟩ := hyphen_eq_split htl hc1' hc2'
  injection htl2 with _ htl2
  injection htl2 with _ htl2
  injection htl2 with _ htl2
  injection htl2 with _ htl2
  injection htl2 with _ htl2
  injection htl2 with _ htl2
  injection htl2 with _ htl2
  injection htl2 with _ htl2
  injection htl2 with _ htl2
  injection htl2 with _ htl2
  refine ⟨?_, ?_, ?_⟩
  · exact List.reverse_injective htl2
  · exact List.reverse_injective hc
  · exact List.reverse_injective hn

/-- C7: the generated patch filename equals exactly
`<repository> ++ "-bump-from-" ++ <current> ++ "-to-" ++ <new> ++ ".patch"`. -/
theorem claim_c7 (r c n : String) :
    patch_name r c n = r ++ "-bump-from-" ++ c ++ "-to-" ++ n ++ ".patch" :=
  patch_name_append r c n

/-- C8 counterexample: `patch_name` is not injective over distinct
(repository, current, new) triples once pre-release suffixes are allowed:
the syntactically valid semantic versions `1.0.0-to-1.0.0` / `2.0.0` and
`1.0.0` / `1.0.0-to-2.0.0` produce the same filename for the same
repository. -/
theorem claim_c8_counterexample :
    patch_name "repoA" "1.0.0-to-1.0.0" "2.0.0"
      = patch_name "repoA" "1.0.0" "1.0.0-to-2.0.0"
    ∧ isValidSemVer "1.0.0-to-1.0.0".toList = true
    ∧ isValidSemVer "1.0.0-to-2.0.0".toList = true
    ∧ (("repoA", "1.0.0-to-1.0.0", "2.0.0") : String × String × String)
        ≠ ("repoA", "1.0.0", "1.0.0-to-2.0.0") := by
  exact ⟨by decide, by decide, by decide, by decide⟩

/-- C8 (amended): patch filename generation is injective over
(repository, current, new) triples whose version components contain no
hyphen (in particular for plain `MAJOR.MINOR.PATCH` versions without
pre-release/build suffix); with hyphenated pre-release versions distinct
triples can collide. -/
theorem claim_c8 (r1 c1 n1 r2 c2 n2 : String)
    (hc1 : '-' ∉ c1.toList) (hn1 : '-' ∉ n1.toList)
    (hc2 : '-' ∉ c2.toList) (hn2 : '-' ∉ n2.toList)
    (h : patch_name r1 c1 n1 = patch_name r2 c2 n2) :
    r1 = r2 ∧ c1 = c2 ∧ n1 = n2 := by
  have hl := congrArg String.toList h
  rw [patch_name_toList, patch_name_toList] at hl
  obtain ⟨h1, h2, h3⟩ := parse_triple hc1 hn1 hc2 hn2 hl
  exact ⟨String.ext h1, String.ext h2, String.ext h3⟩

/-- C8 witness: `claim_c8` applied at a concrete pair of hyphen-free
triples with equal filenames. -/
theorem claim_c8_witness :
    ('-' ∉ "1.0.0".toList ∧ '-' ∉ "2.0.0".toList) ∧
    (("repoA" : String) = "repoA" ∧ ("1.0.0" : String) = "1.0.0" ∧
      ("2.0.0" : String) = "2.0.0") := by
  refine ⟨⟨by decide, by decide⟩, ?_⟩
  exact claim_c8 "repoA" "1.0.0" "2.0.0" "repoA" "1.0.0" "2.0.0"
    (by decide) (by decide) (by decide) (by decide) rfl

/-! ## Run lemmas for the effect monad -/

lemma run_bind {α β : Type} (x : M α) (f : α → M β) (t : List Effect) :
    (x >>= f) t = (match x t with
      | (Except.ok a, t') => f a t'
      | (Except.error e, t') => (Except.error e, t')) := rfl

lemma git_command_run (env : Env) (repo : String) (args : List String) (t : List Effect) :
    git_command env repo args t = (.ok (env.gitResult repo args), t ++ [.git repo args]) := rfl

lemma check_return_code_ok (result : CompletedProcess) (msg : String) (t : List Effect)
    (h : result.returncode = 0) : check_return_code result msg t = (.ok (), t) := by
  rw [check_return_code, if_neg (not_not_intro h)]
  rfl

lemma check_return_code_fail (result : CompletedProcess) (msg : String) (t : List Effect)
    (h : result.returncode ≠ 0) :
    check_return_code result msg t = (.error (.exc result.stderr), t) := by
  rw [check_return_code, if_pos h]
  rfl

lemma commit_changes_fail1 (env : Env) (repo n : String) (t : List Effect)
    (h : (env.gitResult repo ["add", "."]).returncode ≠ 0) :
    commit_changes env repo n t
      = (.error (.exc (env.gitResult repo ["add", "."]).stderr),
          t ++ [.git repo ["add", "."]]) := by
  simp only [commit_changes, run_bind, git_command_run]
  rw [check_return_code_fail _ _ _ h]

lemma commit_changes_fail2 (env : Env) (repo n : String) (t : List Effect)
    (h1 : (env.gitResult repo ["add", "."]).returncode = 0)
    (h2 : (env.gitResult repo ["commit", "-m", "Bump to version " ++ n]).returncode ≠ 0) :
    commit_changes env repo n t
      = (.error (.exc (env.gitResult repo ["commit", "-m", "Bump to version " ++ n]).stderr),
          t ++ [.git repo ["add", "."], .git repo ["commit", "-m", "Bump to version " ++ n]]) := by
  simp only [commit_changes, run_bind, git_command_run]
  rw [check_return_code_ok _ _ _ h1]
  simp only [run_bind, git_command_run]
  rw [check_return_code_fail _ _ _ h2]
  simp

lemma commit_changes_ok (env : Env) (repo n : String) (t : List Effect)
    (h1 : (env.gitResult repo ["add", "."]).returncode = 0)
    (h2 : (env.gitResult repo ["commit", "-m", "Bump to version " ++ n]).returncode = 0) :
    commit_changes env repo n t
      = (.ok (),
          t ++ [.git repo ["add", "."], .git repo ["commit", "-m", "Bump to version " ++ n]]) := by
  simp only [commit_changes, run_bind, git_command_run]
  rw [check_return_code_ok _ _ _ h1]
  simp only [run_bind, git_command_run]
  rw [check_return_code_ok _ _ _ h2]
  simp

lemma create_branch_fail (env : Env) (repo b : String) (t : List Effect)
    (h : (env.gitResult repo ["checkout", "-b", b]).returncode ≠ 0) :
    create_branch env repo b t
      = (.error (.exc (env.gitResult repo ["checkout", "-b", b]).stderr),
          t ++ [.git repo ["checkout", "-b", b]]) := by
  simp only [create_branch, run_bind, git_command_run]
  rw [check_return_code_fail _ _ _ h]

lemma prepare_pull_request_def (env : Env) (repo c n : String) :
    prepare_pull_request env repo c n = commit_changes env repo n := rfl

lemma commit_changes_trace (env : Env) (repo n : String) (t : List Effect) :
    ∃ gs, (commit_changes env repo n t).2 = t ++ gs ∧ ∀ e ∈ gs, e.isGit = true := by
  by_cases h1 : (env.gitResult repo ["add", "."]).returncode = 0
  · by_cases h2 : (env.gitResult repo ["commit", "-m", "Bump to version " ++ n]).returncode = 0
    · rw [commit_changes_ok env repo n t h1 h2]
      exact ⟨_, rfl, by simp [Effect.isGit]⟩
    · rw [commit_changes_fail2 env repo n t h1 h2]
      exact ⟨_, rfl, by simp [Effect.isGit]⟩
  · rw [commit_changes_fail1 env repo n t h1]
    exact ⟨_, rfl, by simp [Effect.isGit]⟩

lemma prepare_pull_requests_trace (env : Env) (c n : String) :
    ∀ (repos : List (String × String)) (t : List Effect),
      ∃ gs, (prepare_pull_requests env repos c n t).2 = t ++ gs ∧ ∀ e ∈ gs, e.isGit = true := by
  intro repos
  induction repos with
  | nil => intro t; exact ⟨[], by simp [prepare_pull_requests]; rfl, by simp⟩
  | cons rp rest ih =>
    intro t
    obtain ⟨repository, patch⟩ := rp
    obtain ⟨gs1, hgs1, hgit1⟩ := commit_changes_trace env repository n t
    simp only [prepare_pull_requests, run_bind, prepare_pull_request_def]
    cases hcc : commit_changes env repository n t with
    | mk res t' =>
      rw [hcc] at hgs1
      cases res with
      | error e => exact ⟨gs1, hgs1, hgit1⟩
      | ok a =>
        obtain ⟨gs2, hgs2, hgit2⟩ := ih t'
        have hgs1' : t' = t ++ gs1 := hgs1
        refine ⟨gs1 ++ gs2, ?_, ?_⟩
        · rw [hgs2, hgs1', List.append_assoc]
        · intro e he
          rcases List.mem_append.mp he with h | h
          · exact hgit1 e h
          · exact hgit2 e h

lemma read_template_run (env : Env) (patch : String) (t : List Effect) :
    read_template env patch t = (.ok (env.template patch), t) := rfl

lemma write_patch_run (filename content : String) (t : List Effect) :
    write_patch filename content t = (.ok (), t ++ [.writeFile filename content]) := rfl

lemma prepare_patches_run (env : Env) (c n : String) :
    ∀ (repos : List (String × String)) (t : List Effect),
      prepare_patches env repos c n t = (.ok (), t ++ patchWrites env repos c n) := by
  intro repos
  induction repos with
  | nil => intro t; simp [patchWrites]; rfl
  | cons rp rest ih =>
    intro t
    obtain ⟨repository, patch⟩ := rp
    simp only [prepare_patches, run_bind, read_template_run, write_patch_run]
    rw [ih]
    simp [patchWrites, List.append_assoc]

lemma check_cli_args_three (p v1 v2 : String) (t : List Effect) :
    check_cli_args [p, v1, v2] t = (.ok (), t) := by
  rw [check_cli_args, if_neg (by simp)]
  rfl

lemma check_version_format_ok (v : String) (h : isValidSemVer v.toList = true)
    (t : List Effect) :
    check_version_format v t = (.ok (), t) := by
  rw [check_version_format, if_pos h]
  rfl

lemma check_version_format_fail (v : String) (h : isValidSemVer v.toList = false)
    (t : List Effect) :
    check_version_format v t
      = (.error (.exc ("invalid version string: " ++ v)), t) := by
  rw [check_version_format, if_neg (by rw [h]; exact Bool.false_ne_true)]
  rfl

/-! ## Claim C1: the pull-request state sequence -/

/-- C1 counterexample: running the pull-request sequence for a configured
repository in an environment where every git command succeeds issues
exactly the two COMMIT-state commands `git add .` and `git commit -m …`;
no `checkout`, `fetch`, `rebase`, `apply` or `push` subcommand is ever
invoked, so the SYNC, BRANCH, CHECK-APPLICABLE, APPLY and PUSH states do
not execute. -/
theorem claim_c1_counterexample :
    (prepare_pull_request envAllOk "lightspeed-operator" "1.0.0" "1.0.1" []).2
      = [.git "lightspeed-operator" ["add", "."],
         .git "lightspeed-operator" ["commit", "-m", "Bump to version 1.0.1"]]
    ∧ gitSubcommands (prepare_pull_request envAllOk "lightspeed-operator" "1.0.0" "1.0.1" []).2
      = [some "add", some "commit"] := by
  exact ⟨by decide, by decide⟩

/-- C1 (amended): for every repository, when every git command succeeds,
`prepare_pull_request` performs only the COMMIT state — exactly
`git add .` followed by `git commit -m "Bump to version <new>"` — because
the calls to the SYNC, BRANCH, CHECK-APPLICABLE, APPLY and PUSH states
are commented out in the source. -/
theorem claim_c1 (env : Env) (repo c n : String)
    (h : ∀ args, (env.gitResult repo args).returncode = 0) :
    prepare_pull_request env repo c n []
      = (.ok (), [.git repo ["add", "."], .git repo ["commit", "-m", "Bump to version " ++ n]]) := by
  rw [prepare_pull_request_def, commit_changes_ok env repo n [] (h _) (h _)]
  rfl

/-- C1 witness: `claim_c1` applied in the all-success environment. -/
theorem claim_c1_witness :
    (∀ args, (envAllOk.gitResult "lightspeed-console" args).returncode = 0) ∧
    prepare_pull_request envAllOk "lightspeed-console" "1.0.0" "1.0.1" []
      = (.ok (), [.git "lightspeed-console" ["add", "."],
          .git "lightspeed-console" ["commit", "-m", "Bump to version 1.0.1"]]) := by
  refine ⟨fun args => rfl, ?_⟩
  have h := claim_c1 envAllOk "lightspeed-console" "1.0.0" "1.0.1" (fun args => rfl)
  simpa using h

/-! ## Claim C3: invalid current version aborts before any side effect -/

/-- C3: when the current-version CLI argument is not a valid semantic
version, the run terminates with a nonzero exit status and the effect
trace is empty — in particular no patch file has been written. -/
theorem claim_c3 (p v1 v2 : String) (env : Env)
    (h : isValidSemVer v1.toList = false) :
    (mainRun [p, v1, v2] env).2 = []
    ∧ ∃ e, (mainRun [p, v1, v2] env).1 = .error e ∧ e.exitCode ≠ 0 := by
  have hrun : mainRun [p, v1, v2] env
      = (.error (.exc ("invalid version string: " ++ v1)), []) := by
    simp only [mainRun, run_bind, check_cli_args_three]
    have hget : [p, v1, v2].getD 1 "" = v1 := rfl
    rw [hget, check_version_format_fail v1 h []]
  rw [hrun]
  exact ⟨rfl, ⟨.exc ("invalid version string: " ++ v1), rfl, by simp [Err.exitCode]⟩⟩

/-- C3 witness: `claim_c3` applied at the spec's scenario, current-version
argument `abc`. -/
theorem claim_c3_witness :
    isValidSemVer "abc".toList = false ∧
    ((mainRun ["bump_up_version.py", "abc", "1.0.1"] envAllOk).2 = []
      ∧ ∃ e, (mainRun ["bump_up_version.py", "abc", "1.0.1"] envAllOk).1 = .error e
          ∧ e.exitCode ≠ 0) :=
  ⟨by decide, claim_c3 "bump_up_version.py" "abc" "1.0.1" envAllOk (by decide)⟩

/-! ## Claim C4: failure semantics of the git checks -/

/-- C4: a nonzero exit code surfaces immediately as an error carrying the
captured stderr text, and no further commands run: (1) `check_return_code`
raises an exception whose payload is the captured stderr; (2) a failing
`git checkout -b` makes `create_branch` abort right after that single
invocation; (3) a failing `git add` makes the repository's pull-request
sequence abort right after that single invocation — no retry, and the
already-recorded trace is left untouched (no rollback). -/
theorem claim_c4 :
    (∀ (result : CompletedProcess) (msg : String) (t : List Effect),
        result.returncode ≠ 0 →
        check_return_code result msg t = (.error (.exc result.stderr), t))
    ∧ (∀ (env : Env) (repo b : String) (t : List Effect),
        (env.gitResult repo ["checkout", "-b", b]).returncode ≠ 0 →
        create_branch env repo b t
          = (.error (.exc (env.gitResult repo ["checkout", "-b", b]).stderr),
              t ++ [.git repo ["checkout", "-b", b]]))
    ∧ (∀ (env : Env) (repo c n : String) (t : List Effect),
        (env.gitResult repo ["add", "."]).returncode ≠ 0 →
        prepare_pull_request env repo c n t
          = (.error (.exc (env.gitResult repo ["add", "."]).stderr),
              t ++ [.git repo ["add", "."]])) := by
  refine ⟨?_, ?_, ?_⟩
  · intro result msg t h
    exact check_return_code_fail result msg t h
  · intro env repo b t h
    exact create_branch_fail env repo b t h
  · intro env repo c n t h
    rw [prepare_pull_request_def, commit_changes_fail1 env repo n t h]

/-- C4 witness: the three parts of `claim_c4` applied in the
all-failure environment (`returncode = 1`, stderr `boom`). -/
theorem claim_c4_witness :
    ((1 : Int) ≠ 0) ∧
    check_return_code ⟨1, "", "boom"⟩ "msg" [] = (.error (.exc "boom"), [])
    ∧ create_branch envFail "lightspeed-service" "bump-from-1.0.0-to-1.0.1" []
        = (.error (.exc "boom"), [.git "lightspeed-service" ["checkout", "-b", "bump-from-1.0.0-to-1.0.1"]])
    ∧ prepare_pull_request envFail "lightspeed-service" "1.0.0" "1.0.1" []
        = (.error (.exc "boom"), [.git "lightspeed-service" ["add", "."]]) := by
  refine ⟨by decide, ?_, ?_, ?_⟩
  · exact claim_c4.1 ⟨1, "", "boom"⟩ "msg" [] (by decide)
  · have h := claim_c4.2.1 envFail "lightspeed-service" "bump-from-1.0.0-to-1.0.1" [] (by decide)
    simpa using h
  · have h := claim_c4.2.2 envFail "lightspeed-service" "1.0.0" "1.0.1" [] (by decide)
    simpa using h

/-! ## Claim C9: all patches are written before the first git command -/

/-- C9: in a run whose version arguments validate, the effect trace is the
complete list of patch-file writes — one per configured repository, in
registry order — followed only by git invocations: patch generation is a
finished phase before the first git command of any pull-request
sequence. -/
theorem claim_c9 (p v1 v2 : String) (env : Env)
    (h1 : isValidSemVer v1.toList = true) (h2 : isValidSemVer v2.toList = true) :
    ∃ gs, (mainRun [p, v1, v2] env).2 = patchWrites env repositories v1 v2 ++ gs
      ∧ (∀ e ∈ patchWrites env repositories v1 v2, e.isGit = false)
      ∧ (patchWrites env repositories v1 v2).length = repositories.length
      ∧ ∀ e ∈ gs, e.isGit = true := by
  obtain ⟨gs, hgs, hgit⟩ :=
    prepare_pull_requests_trace env v1 v2 repositories (patchWrites env repositories v1 v2)
  refine ⟨gs, ?_, ?_, ?_, hgit⟩
  · have hget1 : [p, v1, v2].getD 1 "" = v1 := rfl
    have hget2 : [p, v1, v2].getD 2 "" = v2 := rfl
    simp only [mainRun, run_bind, check_cli_args_three, hget1, hget2,
      check_version_format_ok v1 h1, check_version_format_ok v2 h2,
      prepare_patches_run env v1 v2, List.nil_append]
    exact hgs
  · intro e he
    simp only [patchWrites, List.mem_map] at he
    obtain ⟨rp, _, rfl⟩ := he
    rfl
  · simp [patchWrites]

/-- C9 witness: `claim_c9` applied at valid versions `1.0.0` / `1.0.1` in
the all-success environment. -/
theorem claim_c9_witness :
    (isValidSemVer "1.0.0".toList = true ∧ isValidSemVer "1.0.1".toList = true) ∧
    ∃ gs, (mainRun ["bump_up_version.py", "1.0.0", "1.0.1"] envAllOk).2
        = patchWrites envAllOk repositories "1.0.0" "1.0.1" ++ gs
      ∧ (∀ e ∈ patchWrites envAllOk repositories "1.0.0" "1.0.1", e.isGit = false)
      ∧ (patchWrites envAllOk repositories "1.0.0" "1.0.1").length = repositories.length
      ∧ ∀ e ∈ gs, e.isGit = true :=
  ⟨⟨by decide, by decide⟩,
    claim_c9 "bump_up_version.py" "1.0.0" "1.0.1" envAllOk (by decide) (by decide)⟩

/-! ## Claim C10: read and write locations -/

/-- C10: the patch template is read from the registry path resolved
against the script's directory, the rendered patch is written to the
generated filename resolved against the current working directory, and
for a given relative name the two resolved locations coincide exactly
when the process's working directory is the script's directory. -/
theorem claim_c10 (script_dir cwd patch filename : String) :
    (read_template_path script_dir patch = script_dir ++ "/" ++ patch)
    ∧ (write_patch_path cwd filename = cwd ++ "/" ++ filename)
    ∧ (∀ x : String, read_template_path script_dir x = write_patch_path cwd x
        ↔ script_dir = cwd) := by
  refine ⟨rfl, rfl, fun x => ⟨fun h => ?_, fun h => by rw [read_template_path, write_patch_path, h]⟩⟩
  have hl := congrArg String.data h
  rw [read_template_path, write_patch_path] at hl
  simp only [String.data_append] at hl
  have h1 := List.append_cancel_right hl
  have h2 := List.append_cancel_right h1
  exact String.ext h2

/-! ## Split/join lemmas for semantic-version parsing -/

lemma splitOnDot_ne_nil : ∀ l : List Char, splitOnDot l ≠ [] := by
  intro l
  induction l with
  | nil => simp [splitOnDot]
  | cons c rest ih =>
    rw [splitOnDot]
    by_cases h : c = '.'
    · simp [h]
    · rw [if_neg h]
      cases hs : splitOnDot rest with
      | nil => simp
      | cons p ps => simp

lemma joinDots_splitOnDot : ∀ l : List Char, joinDots (splitOnDot l) = l := by
  intro l
  induction l with
  | nil => rfl
  | cons c rest ih =>
    rw [splitOnDot]
    by_cases h : c = '.'
    · rw [if_pos h]
      cases hs : splitOnDot rest with
      | nil => exact absurd hs (splitOnDot_ne_nil rest)
      | cons p ps =>
        rw [hs] at ih
        rw [joinDots, List.nil_append, ih, h]
    · rw [if_neg h]
      cases hs : splitOnDot rest with
      | nil => exact absurd hs (splitOnDot_ne_nil rest)
      | cons p ps =>
        rw [hs] at ih
        cases ps with
        | nil =>
          rw [joinDots] at ih ⊢
          rw [ih]
        | cons q ps' =>
          rw [joinDots] at ih ⊢
          rw [← ih]
          rfl

lemma splitOnDot_no_dot_id {p : List Char} (h : '.' ∉ p) : splitOnDot p = [p] := by
  induction p with
  | nil => rfl
  | cons c rest ih =>
    have hc : ¬ c = '.' := fun hc => h (by simp [hc])
    have hrest : '.' ∉ rest := fun hm => h (List.mem_cons_of_mem c hm)
    rw [splitOnDot, if_neg hc, ih hrest]

lemma splitOnDot_append_dot {p : List Char} (l : List Char) (h : '.' ∉ p) :
    splitOnDot (p ++ '.' :: l) = p :: splitOnDot l := by
  induction p with
  | nil => rw [List.nil_append, splitOnDot, if_pos rfl]
  | cons c p' ih =>
    have hc : ¬ c = '.' := fun hc => h (by simp [hc])
    have hp' : '.' ∉ p' := fun hm => h (List.mem_cons_of_mem c hm)
    rw [List.cons_append, splitOnDot, if_neg hc, ih hp']

lemma splitOnDot_join : ∀ (parts : List (List Char)), parts ≠ [] →
    (∀ p ∈ parts, '.' ∉ p) → splitOnDot (joinDots parts) = parts := by
  intro parts
  induction parts with
  | nil => intro h; exact absurd rfl h
  | cons p rest ih =>
    intro _ hnd
    cases rest with
    | nil => exact splitOnDot_no_dot_id (hnd p (List.mem_cons_self p []))
    | cons q rest' =>
      rw [joinDots, splitOnDot_append_dot _ (hnd p (List.mem_cons_self p _))]
      rw [ih (by simp) (fun r hr => hnd r (List.mem_cons_of_mem p hr))]

lemma splitFirst_fst_no_sep : ∀ (sep : Char) (l : List Char), sep ∉ (splitFirst sep l).1 := by
  intro sep l
  induction l with
  | nil => simp [splitFirst]
  | cons c rest ih =>
    rw [splitFirst]
    by_cases h : c = sep
    · simp [h]
    · simp only [if_neg h]
      intro hm
      rcases List.mem_cons.mp hm with hm | hm
      · exact h hm.symm
      · exact ih hm

lemma splitFirst_recon : ∀ (sep : Char) (l : List Char),
    l = (splitFirst sep l).1 ++ (match (splitFirst sep l).2 with
      | none => [] | some y => sep :: y) := by
  intro sep l
  induction l with
  | nil => rfl
  | cons c rest ih =>
    rw [splitFirst]
    by_cases h : c = sep
    · simp [h]
    · simp only [if_neg h]
      conv_lhs => rw [ih]
      rw [List.cons_append]

lemma splitFirst_none {sep : Char} {l : List Char} (h : sep ∉ l) :
    splitFirst sep l = (l, none) := by
  induction l with
  | nil => rfl
  | cons c rest ih =>
    have hc : ¬ c = sep := fun hc => h (by simp [hc])
    have hrest : sep ∉ rest := fun hm => h (List.mem_cons_of_mem c hm)
    rw [splitFirst, if_neg hc, ih hrest]

lemma splitFirst_some {sep : Char} {x : List Char} (y : List Char) (h : sep ∉ x) :
    splitFirst sep (x ++ sep :: y) = (x, some y) := by
  induction x with
  | nil => rw [List.nil_append, splitFirst, if_pos rfl]
  | cons c x' ih =>
    have hc : ¬ c = sep := fun hc => h (by simp [hc])
    have hx' : sep ∉ x' := fun hm => h (List.mem_cons_of_mem c hm)
    rw [List.cons_append, splitFirst, if_neg hc, ih hx']

/-! ## Bridges between the executable validator and the declarative shape -/

lemma isDigits_iff {l : List Char} : isDigits l = true ↔ NumStr l := by
  simp [isDigits, NumStr, List.all_eq_true]

lemma isIdent_iff {l : List Char} : isIdent l = true ↔ IdentStr l := by
  simp [isIdent, IdentStr, List.all_eq_true]

lemma dotSeparated_iff {l : List Char} : dotSeparated isIdent l = true ↔ DotIdents l := by
  constructor
  · intro h
    refine ⟨splitOnDot l, splitOnDot_ne_nil l, ?_, (joinDots_splitOnDot l).symm⟩
    intro p hp
    exact isIdent_iff.mp (List.all_eq_true.mp h p hp)
  · rintro ⟨parts, hne, hid, rfl⟩
    rw [dotSeparated, splitOnDot_join parts hne ?_]
    · exact List.all_eq_true.mpr (fun p hp => isIdent_iff.mpr (hid p hp))
    · intro p hp hd
      exact absurd ((hid p hp).2 '.' hd) (by decide)

lemma isValidCore_iff {core : List Char} :
    isValidCore core = true
      ↔ ∃ a b c, NumStr a ∧ NumStr b ∧ NumStr c ∧ core = a ++ '.' :: (b ++ '.' :: c) := by
  constructor
  · intro h
    rw [isValidCore] at h
    cases hs : splitOnDot core with
    | nil => rw [hs] at h; simp at h
    | cons p1 t1 =>
      cases t1 with
      | nil => rw [hs] at h; simp at h
      | cons p2 t2 =>
        cases t2 with
        | nil => rw [hs] at h; simp at h
        | cons p3 t3 =>
          cases t3 with
          | cons _ _ => rw [hs] at h; simp at h
          | nil =>
            rw [hs] at h
            simp only [Bool.and_eq_true] at h
            obtain ⟨⟨h1, h2⟩, h3⟩ := h
            refine ⟨p1, p2, p3, isDigits_iff.mp h1, isDigits_iff.mp h2, isDigits_iff.mp h3, ?_⟩
            have hj := joinDots_splitOnDot core
            rw [hs] at hj
            rw [← hj]
            rfl
  · rintro ⟨a, b, c, ha, hb, hc, rfl⟩
    have hna : '.' ∉ a := fun hd => absurd (ha.2 '.' hd) (by decide)
    have hnb : '.' ∉ b := fun hd => absurd (hb.2 '.' hd) (by decide)
    have hnc : '.' ∉ c := fun hd => absurd (hc.2 '.' hd) (by decide)
    rw [isValidCore, splitOnDot_append_dot _ hna, splitOnDot_append_dot _ hnb,
      splitOnDot_no_dot_id hnc]
    simp [isDigits_iff.mpr ha, isDigits_iff.mpr hb, isDigits_iff.mpr hc]

/-- Characters of `joinDots parts` are characters of the parts or dots. -/
lemma mem_joinDots {ch : Char} : ∀ {parts : List (List Char)},
    ch ∈ joinDots parts → (∃ p ∈ parts, ch ∈ p) ∨ ch = '.' := by
  intro parts
  induction parts with
  | nil => intro h; simp [joinDots] at h
  | cons p rest ih =>
    intro h
    cases rest with
    | nil => exact Or.inl ⟨p, List.mem_cons_self p [], h⟩
    | cons q rest' =>
      rw [joinDots] at h
      rcases List.mem_append.mp h with h | h
      · exact Or.inl ⟨p, List.mem_cons_self p _, h⟩
      · rcases List.mem_cons.mp h with h | h
        · exact Or.inr h
        · rcases ih h with ⟨r, hr, hm⟩ | h
          · exact Or.inl ⟨r, List.mem_cons_of_mem p hr, hm⟩
          · exact Or.inr h

lemma dotIdents_no_mem {ch : Char} {l : List Char}
    (h : DotIdents l) (hch : isIdentChar ch = false) (hdot : ch ≠ '.') : ch ∉ l := by
  obtain ⟨parts, _, hid, rfl⟩ := h
  intro hm
  rcases mem_joinDots hm with ⟨p, hp, hmem⟩ | h
  · have := (hid p hp).2 ch hmem
    rw [hch] at this
    exact Bool.false_ne_true this
  · exact hdot h

lemma numStr_no_mem {ch : Char} {l : List Char}
    (h : NumStr l) (hch : ch.isDigit = false) : ch ∉ l := by
  intro hm
  have := h.2 ch hm
  rw [hch] at this
  exact Bool.false_ne_true this

/-- No non-digit, non-dot character occurs in the rendered core. -/
lemma core_no_mem {ch : Char} {a b c : List Char}
    (ha : NumStr a) (hb : NumStr b) (hc : NumStr c)
    (hch : ch.isDigit = false) (hdot : ch ≠ '.') :
    ch ∉ a ++ '.' :: (b ++ '.' :: c) := by
  intro hm
  simp only [List.mem_append, List.mem_cons] at hm
  rcases hm with h | h | h | h | h
  · exact numStr_no_mem ha hch h
  · exact hdot h
  · exact numStr_no_mem hb hch h
  · exact hdot h
  · exact numStr_no_mem hc hch h

/-- The executable validator accepts exactly the strings of the
declarative `MAJOR.MINOR.PATCH` (+ optional suffix) shape. -/
lemma isValidSemVer_iff (s : List Char) : isValidSemVer s = true ↔ SemVerShape s := by
  constructor
  · intro h
    simp only [isValidSemVer, Bool.and_eq_true] at h
    obtain ⟨⟨hcore, hpre⟩, hbuild⟩ := h
    have hrecon1 := splitFirst_recon '+' s
    have hrecon2 := splitFirst_recon '-' (splitFirst '+' s).1
    obtain ⟨a, b, c, ha, hb, hc, hcoreEq⟩ := isValidCore_iff.mp hcore
    cases hP : (splitFirst '-' (splitFirst '+' s).1).2 with
    | none =>
      rw [hP] at hrecon2 hpre
      simp only [List.append_nil] at hrecon2
      cases hB : (splitFirst '+' s).2 with
      | none =>
        rw [hB] at hrecon1
        simp only [List.append_nil] at hrecon1
        refine ⟨a, b, c, [], ha, hb, hc, Or.inl rfl, ?_⟩
        rw [hrecon1, hrecon2, hcoreEq]
        simp
      | some build =>
        rw [hB] at hrecon1 hbuild
        refine ⟨a, b, c, '+' :: build, ha, hb, hc,
          Or.inr (Or.inr (Or.inl ⟨build, dotSeparated_iff.mp hbuild, rfl⟩)), ?_⟩
        rw [hrecon1, hrecon2, hcoreEq]
        simp
    | some pre =>
      rw [hP] at hrecon2 hpre
      cases hB : (splitFirst '+' s).2 with
      | none =>
        rw [hB] at hrecon1
        simp only [List.append_nil] at hrecon1
        refine ⟨a, b, c, '-' :: pre, ha, hb, hc,
          Or.inr (Or.inl ⟨pre, dotSeparated_iff.mp hpre, rfl⟩), ?_⟩
        rw [hrecon1, hrecon2, hcoreEq]
        simp
      | some build =>
        rw [hB] at hrecon1 hbuild
        refine ⟨a, b, c, '-' :: pre ++ '+' :: build, ha, hb, hc,
          Or.inr (Or.inr (Or.inr ⟨pre, build, dotSeparated_iff.mp hpre,
            dotSeparated_iff.mp hbuild, rfl⟩)), ?_⟩
        rw [hrecon1, hrecon2, hcoreEq]
        simp
  · rintro ⟨a, b, c, suf, ha, hb, hc, hsuf, rfl⟩
    have hplus_core : '+' ∉ a ++ '.' :: (b ++ '.' :: c) :=
      core_no_mem ha hb hc (by decide) (by decide)
    have hminus_core : '-' ∉ a ++ '.' :: (b ++ '.' :: c) :=
      core_no_mem ha hb hc (by decide) (by decide)
    have hshape : a ++ '.' :: b ++ '.' :: c ++ suf = (a ++ '.' :: (b ++ '.' :: c)) ++ suf := by
      simp [List.append_assoc]
    rw [hshape]
    have hcoreOk : isValidCore (a ++ '.' :: (b ++ '.' :: c)) = true :=
      isValidCore_iff.mpr ⟨a, b, c, ha, hb, hc, rfl⟩
    rcases hsuf with rfl | ⟨pre, hpre, rfl⟩ | ⟨build, hbuild, rfl⟩
      | ⟨pre, build, hpre, hbuild, rfl⟩
    · rw [List.append_nil]
      simp only [isValidSemVer, splitFirst_none hplus_core, splitFirst_none hminus_core]
      simp [hcoreOk]
    · have hplus_pre : '+' ∉ pre := dotIdents_no_mem hpre (by decide) (by decide)
      have hplus : '+' ∉ (a ++ '.' :: (b ++ '.' :: c)) ++ '-' :: pre := by
        intro hm
        rcases List.mem_append.mp hm with hm | hm
        · exact hplus_core hm
        · rcases List.mem_cons.mp hm with hm | hm
          · exact absurd hm (by decide)
          · exact hplus_pre hm
      simp only [isValidSemVer, splitFirst_none hplus, splitFirst_some pre hminus_core]
      simp [hcoreOk, dotSeparated_iff.mpr hpre]
    · simp only [isValidSemVer, splitFirst_some build hplus_core, splitFirst_none hminus_core]
      simp [hcoreOk, dotSeparated_iff.mpr hbuild]
    · have hplus_pre : '+' ∉ pre := dotIdents_no_mem hpre (by decide) (by decide)
      have hplus : '+' ∉ (a ++ '.' :: (b ++ '.' :: c)) ++ '-' :: pre := by
        intro hm
        rcases List.mem_append.mp hm with hm | hm
        · exact hplus_core hm
        · rcases List.mem_cons.mp hm with hm | hm
          · exact absurd hm (by decide)
          · exact hplus_pre hm
      have hassoc : (a ++ '.' :: (b ++ '.' :: c)) ++ ('-' :: pre ++ '+' :: build)
          = ((a ++ '.' :: (b ++ '.' :: c)) ++ '-' :: pre) ++ '+' :: build := by
        simp [List.append_assoc]
      rw [hassoc]
      simp only [isValidSemVer, splitFirst_some build hplus, splitFirst_some pre hminus_core]
      simp [hcoreOk, dotSeparated_iff.mpr hpre, dotSeparated_iff.mpr hbuild]

/-- C2: version validation succeeds exactly on syntactically valid
semantic versions — strings of the shape `MAJOR.MINOR.PATCH` with an
optional pre-release/build suffix — and on every other string it fails
with a validation error.  (The validator is modelled from the spec: the
`semantic_version` library it calls is not part of the repository.) -/
theorem claim_c2 (v : String) (t : List Effect) :
    (check_version_format v t = (.ok (), t) ↔ SemVerShape v.toList)
    ∧ (check_version_format v t = (.ok (), t)
        ∨ ∃ m, check_version_format v t = (.error (.exc m), t)) := by
  cases h : isValidSemVer v.toList with
  | true =>
    rw [check_version_format_ok v h t]
    exact ⟨⟨fun _ => (isValidSemVer_iff _).mp h, fun _ => rfl⟩, Or.inl rfl⟩
  | false =>
    rw [check_version_format_fail v h t]
    refine ⟨⟨fun he => absurd he (by simp), fun hs => ?_⟩, Or.inr ⟨_, rfl⟩⟩
    rw [(isValidSemVer_iff v.toList).mpr hs] at h
    exact absurd h (by decide)

end BumpUpVersion
